import Mathlib

/-!
# Verification of the k-tune actuator test tool

A shallow embedding, in Lean 4, of the core of `ktune.py`:

* the overshoot analyzer `compute_step_overshoots` (floats are modelled as
  exact rationals extended with the IEEE special values NaN and ±infinity;
  rounding of finite values is not modelled, which is exact on all the
  concrete inputs considered here);
* the step-schedule construction performed in `main` for step tests;
* the two timed trajectory drivers `run_sine_test` and `run_step_test`,
  modelled as deterministic state machines over an idealized discrete-event
  clock: every awaited RPC advances the clock by a nonnegative latency drawn
  from the environment, `asyncio.sleep(s)` advances it by exactly
  `max s 0`, and all other work takes zero time.  Each
  `get_actuators_state` call returns either a state (a pair of measured
  values) or nothing (an empty state list), again drawn from the
  environment.  The `while` sampling loops of the step driver are given
  explicit fuel; the loop exit condition on the clock is kept, so any
  sufficiently large fuel yields the run's actual behaviour.

The gain-selection logic of the two drivers is embedded separately as pure
functions (`sineUsedGains`, `stepUsedGains`).
-/

/-- Float value for the analyzer: a rational, or one of the IEEE special
values NaN, +inf, -inf.  Rounding of finite arithmetic is not modelled. -/
inductive FV where
  | nan : FV
  | pinf : FV
  | ninf : FV
  | fin : ℚ → FV
deriving DecidableEq, Repr

namespace FV

/-- IEEE subtraction. -/
def sub : FV → FV → FV
  | nan, _ => nan
  | _, nan => nan
  | pinf, pinf => nan
  | pinf, ninf => pinf
  | pinf, fin _ => pinf
  | ninf, ninf => nan
  | ninf, pinf => ninf
  | ninf, fin _ => ninf
  | fin _, pinf => ninf
  | fin _, ninf => pinf
  | fin a, fin b => fin (a - b)

/-- IEEE division (zero is unsigned: a finite nonzero numerator over zero
gives the infinity matching the numerator's sign, 0/0 gives NaN).  numpy
emits a warning in the zero-divisor case but still produces this value. -/
def div : FV → FV → FV
  | nan, _ => nan
  | _, nan => nan
  | pinf, pinf => nan
  | pinf, ninf => nan
  | ninf, pinf => nan
  | ninf, ninf => nan
  | pinf, fin d => if d < 0 then ninf else pinf
  | ninf, fin d => if d < 0 then pinf else ninf
  | fin _, pinf => fin 0
  | fin _, ninf => fin 0
  | fin a, fin d =>
      if d = 0 then (if a = 0 then nan else if 0 < a then pinf else ninf)
      else fin (a / d)

/-- IEEE multiplication by a finite constant (used for the `* 100.0`). -/
def mulQ : FV → ℚ → FV
  | nan, _ => nan
  | pinf, c => if 0 < c then pinf else if c = 0 then nan else ninf
  | ninf, c => if 0 < c then ninf else if c = 0 then nan else pinf
  | fin a, c => fin (a * c)

/-- IEEE `<` comparison: false whenever NaN is involved. -/
def lt : FV → FV → Bool
  | nan, _ => false
  | _, nan => false
  | pinf, _ => false
  | ninf, ninf => false
  | ninf, _ => true
  | fin _, ninf => false
  | fin _, pinf => true
  | fin a, fin b => decide (a < b)

/-- numpy's pairwise maximum as used by `np.max` reduction: NaN propagates. -/
def mmax (x y : FV) : FV :=
  match x, y with
  | nan, _ => nan
  | _, nan => nan
  | a, b => if lt a b then b else a

/-- numpy's pairwise minimum as used by `np.min` reduction: NaN propagates. -/
def mmin (x y : FV) : FV :=
  match x, y with
  | nan, _ => nan
  | _, nan => nan
  | a, b => if lt b a then b else a

end FV

/-- `np.max` over a nonempty array (NaN propagates); arbitrary on `[]`
(the analyzer never reaches `np.max` with an empty window). -/
def npMax : List FV → FV
  | [] => FV.nan
  | h :: t => t.foldl FV.mmax h

/-- `np.min` over a nonempty array (NaN propagates); arbitrary on `[]`. -/
def npMin : List FV → FV
  | [] => FV.nan
  | h :: t => t.foldl FV.mmin h

/-- Python `max(0.0, x)`: returns `x` if `x > 0.0`, else `0.0`
(a NaN comparison is false, so `max(0.0, nan) = 0.0`). -/
def clamp0 (x : FV) : FV := if FV.lt (FV.fin 0) x then x else FV.fin 0

/-- Maximum of a nonempty list of rationals (mathematical reading of
"max of the window" for an all-finite window); arbitrary on `[]`. -/
def listMax : List ℚ → ℚ
  | [] => 0
  | h :: t => t.foldl max h

/-- Minimum of a nonempty list of rationals; arbitrary on `[]`. -/
def listMin : List ℚ → ℚ
  | [] => 0
  | h :: t => t.foldl min h

/-- Helper for `stepTimes`: running cumulative sum of the `duration`
components, starting from `acc`. -/
def stepTimesAux (acc : ℚ) : List (ℚ × ℚ × ℚ) → List ℚ
  | [] => [acc]
  | (_, _, d) :: rest => acc :: stepTimesAux (acc + d) rest

/-- The `step_times` array built by `compute_step_overshoots`: `[0.0]`
followed by the cumulative durations of the schedule's phases. -/
def stepTimes (steps : List (ℚ × ℚ × ℚ)) : List ℚ := stepTimesAux 0 steps

/-- Helper for `transitions`: walks adjacent phase pairs carrying the
cumulative duration `acc` of the phases already passed. -/
def transAux (acc : ℚ) : List (ℚ × ℚ × ℚ) → List (ℚ × ℚ × ℚ)
  | [] => []
  | [_] => []
  | s :: s' :: rest => (s.1, s'.1, acc + s.2.2) :: transAux (acc + s.2.2) (s' :: rest)

/-- The step transitions considered by the loop of `compute_step_overshoots`:
one triple `(old_target, new_target, command_time)` per index
`i = 1 .. len(steps)-1`, where `command_time = step_times[i]`. -/
def transitions (steps : List (ℚ × ℚ × ℚ)) : List (ℚ × ℚ × ℚ) := transAux 0 steps

/-- The values of `pos_array` whose timestamp lies in `[ct, we]`: the
`np.where((time_array >= ct) & (time_array <= we))` index selection of
`compute_step_overshoots` (the two arrays have equal length whenever they
come from a driver record, so positional `zip` is exact). -/
def windowVals (time_array : List ℚ) (pos_array : List FV) (ct we : ℚ) : List FV :=
  ((time_array.zip pos_array).filter
    (fun p => decide (ct ≤ p.1) && decide (p.1 ≤ we))).map (·.2)

/-- The body of the per-transition loop of `compute_step_overshoots`:
`none` models the `continue` on an empty window, otherwise the appended
overshoot percentage is returned. -/
def overshootEntry (time_array : List ℚ) (pos_array : List FV) (window_duration : ℚ)
    (tr : ℚ × ℚ × ℚ) : Option FV :=
  let old_target := tr.1
  let new_target := tr.2.1
  let command_time := tr.2.2
  let w := windowVals time_array pos_array command_time (command_time + window_duration)
  if w.isEmpty then none
  else if old_target < new_target then
    some (clamp0 (FV.mulQ (FV.div (FV.sub (npMax w) (FV.fin new_target))
      (FV.fin (new_target - old_target))) 100))
  else
    some (clamp0 (FV.mulQ (FV.div (FV.sub (FV.fin new_target) (npMin w))
      (FV.fin (old_target - new_target))) 100))

/-- `compute_step_overshoots` from `ktune.py`: one entry per step transition
whose measurement window contains at least one sample. -/
def compute_step_overshoots (time_array : List ℚ) (pos_array : List FV)
    (steps : List (ℚ × ℚ × ℚ)) (window_duration : ℚ) : List FV :=
  (transitions steps).filterMap (overshootEntry time_array pos_array window_duration)

/-- The repeated `(step-up, step-down)` phase pairs appended by the loop in
`main` that constructs `steps_list` for a step test. -/
def stepCyclesList (step_size vel hold : ℚ) : ℕ → List (ℚ × ℚ × ℚ)
  | 0 => []
  | n + 1 => stepCyclesList step_size vel hold n ++ [(step_size, vel, hold), (0, vel, hold)]

/-- The full `steps_list` built in `main` from the CLI parameters: an
initial hold at 0 followed by `step_count` step-up/step-down pairs
(`main` passes `vel = 200.0` since `args` has no `vel_limit` attribute). -/
def buildStepsList (step_size vel hold : ℚ) (step_count : ℕ) : List (ℚ × ℚ × ℚ) :=
  (0, vel, hold) :: stepCyclesList step_size vel hold step_count

/-- Python `int()` applied to an exact rational: truncation toward zero. -/
def pyInt (q : ℚ) : ℤ := if 0 ≤ q then ⌊q⌋ else ⌈q⌉

/-- `steps = int(duration / dt)` with `dt = 1.0 / update_rate`, from
`run_sine_test`. -/
def sineNumSteps (duration update_rate : ℚ) : ℤ := pyInt (duration / (1 / update_rate))

/-- The position commanded by `run_sine_test` at iteration `i`
(`t = i * dt`): `amplitude * sin(2*pi*freq*t)`. -/
noncomputable def sineCmdPos (amp freq dt : ℝ) (i : ℕ) : ℝ :=
  amp * Real.sin (2 * Real.pi * freq * (i * dt))

/-- The velocity commanded by `run_sine_test` at iteration `i`:
`amplitude * (2*pi*freq) * cos(2*pi*freq*t)` with `t = i * dt`. -/
noncomputable def sineCmdVel (amp freq dt : ℝ) (i : ℕ) : ℝ :=
  amp * (2 * Real.pi * freq) * Real.cos (2 * Real.pi * freq * (i * dt))

/-- A measured value: a measurement, or the `float('nan')` sentinel used
when the endpoint returned no state. -/
inductive Meas (α : Type) where
  | nan : Meas α
  | val : α → Meas α
deriving DecidableEq, Repr

/-- The dict-of-lists record populated by a driver run (`data_dict`): the
three command sequences and the three measurement sequences.  `resp_time`
(sine mode only, unused downstream) is not modelled. -/
structure DriverRec (α : Type) where
  cmd_time : List ℚ
  cmd_pos : List α
  cmd_vel : List α
  time : List ℚ
  position : List (Meas α)
  velocity : List (Meas α)

/-- The empty record created before a driver run. -/
def DriverRec.empty (α : Type) : DriverRec α :=
  { cmd_time := [], cmd_pos := [], cmd_vel := [], time := [], position := [], velocity := [] }

/-- Append one entry to the three command sequences. -/
def DriverRec.pushCmd (r : DriverRec α) (ct : ℚ) (cp cv : α) : DriverRec α :=
  { r with cmd_time := r.cmd_time ++ [ct], cmd_pos := r.cmd_pos ++ [cp],
           cmd_vel := r.cmd_vel ++ [cv] }

/-- Append one entry to the three measurement sequences. -/
def DriverRec.pushMeas (r : DriverRec α) (t : ℚ) (p v : Meas α) : DriverRec α :=
  { r with time := r.time ++ [t], position := r.position ++ [p],
           velocity := r.velocity ++ [v] }

/-- Append one entry to all six sequences (the step driver always appends
a command entry and a measurement entry together). -/
def DriverRec.push (r : DriverRec α) (ct : ℚ) (cp cv : α) (t : ℚ) (p v : Meas α) :
    DriverRec α :=
  (r.pushCmd ct cp cv).pushMeas t p v

/-- `r'` extends `r`: every sequence of `r'` is the corresponding sequence
of `r` with some suffix appended (append-only, never reordered). -/
def recExtends (r r' : DriverRec α) : Prop :=
  (∃ l, r'.cmd_time = r.cmd_time ++ l) ∧ (∃ l, r'.cmd_pos = r.cmd_pos ++ l) ∧
  (∃ l, r'.cmd_vel = r.cmd_vel ++ l) ∧ (∃ l, r'.time = r.time ++ l) ∧
  (∃ l, r'.position = r.position ++ l) ∧ (∃ l, r'.velocity = r.velocity ++ l)

/-- Environment of one sine-driver run: the commanded profile, the latency
of each awaited RPC, and each state query's response. -/
structure SineEnv (α : Type) where
  posF : ℕ → α
  velF : ℕ → α
  cmdLat : ℕ → ℚ
  qryLat : ℕ → ℚ
  state? : ℕ → Option (α × α)

/-- State of the sine loop: the clock, the absolute deadline `next_tick`,
and the record built so far. -/
structure SineState (α : Type) where
  now : ℚ
  next_tick : ℚ
  data : DriverRec α

/-- The measured position recorded by the sine loop at iteration `i`:
the queried state's position, NaN on an empty state list, or (with
`request_state = False`) the commanded position itself. -/
def sineMeasPos (env : SineEnv α) (request_state : Bool) (i : ℕ) : Meas α :=
  if request_state then
    match env.state? i with
    | some pv => Meas.val pv.1
    | none => Meas.nan
  else Meas.val (env.posF i)

/-- The measured velocity recorded by the sine loop at iteration `i`. -/
def sineMeasVel (env : SineEnv α) (request_state : Bool) (i : ℕ) : Meas α :=
  if request_state then
    match env.state? i with
    | some pv => Meas.val pv.2
    | none => Meas.nan
  else Meas.val (env.velF i)

/-- One iteration of the `for i in range(steps)` loop of `run_sine_test`:
log the command, await the command RPC, (with `request_state`) await the
state query, log the measurement (`sineMeasPos`/`sineMeasVel`) at the
post-query clock, then `next_tick += dt` and sleep until `next_tick` if it
is still ahead (`sleep_time > 0`), else proceed immediately. -/
def sineIter (env : SineEnv α) (start dt : ℚ) (request_state : Bool) (i : ℕ)
    (s : SineState α) : SineState α :=
  let t_send := s.now - start
  let d1 := s.data.pushCmd t_send (env.posF i) (env.velF i)
  let now2 := s.now + env.cmdLat i + (if request_state then env.qryLat i else 0)
  let d2 := d1.pushMeas (now2 - start) (sineMeasPos env request_state i)
    (sineMeasVel env request_state i)
  let nt := s.next_tick + dt
  { now := if now2 < nt then nt else now2, next_tick := nt, data := d2 }

/-- The sine loop after `n` iterations, started at clock `t0` (the code
sets `next_tick = time.time()` immediately before the loop). -/
def sineRun (env : SineEnv α) (start dt : ℚ) (request_state : Bool) (t0 : ℚ) :
    ℕ → SineState α
  | 0 => { now := t0, next_tick := t0, data := DriverRec.empty α }
  | n + 1 => sineIter env start dt request_state n (sineRun env start dt request_state t0 n)

/-- `run_sine_test`: `int(duration / dt)` iterations of the sine loop.
The commanded profile is computed by the loop itself (`angle`, `vel` via
`math.sin`/`math.cos`); only the RPC latencies and the query outcomes come
from the environment. -/
noncomputable def run_sine_test (amp freq : ℝ) (cmdLat qryLat : ℕ → ℚ)
    (state? : ℕ → Option (ℝ × ℝ)) (start t0 duration update_rate : ℚ)
    (request_state : Bool) : SineState ℝ :=
  sineRun { posF := sineCmdPos amp freq ((1 / update_rate : ℚ) : ℝ),
            velF := sineCmdVel amp freq ((1 / update_rate : ℚ) : ℝ),
            cmdLat := cmdLat,
            qryLat := qryLat,
            state? := state? }
    start (1 / update_rate) request_state t0 (sineNumSteps duration update_rate).toNat

/-- Environment of one step-driver run: latency of the initial
`configure_actuator` RPC, of each `command_actuators` RPC, of each
`get_actuators_state` RPC, and each state query's response. -/
structure StepEnv where
  cfgLat : ℚ
  cmdLat : ℕ → ℚ
  qryLat : ℕ → ℚ
  state? : ℕ → Option (ℚ × ℚ)

/-- State of the step driver: the clock, how many command RPCs and state
queries have been issued, and the record built so far. -/
structure StepState where
  now : ℚ
  cidx : ℕ
  qidx : ℕ
  data : DriverRec ℚ

/-- The sample recorded by the step driver for its `j`-th state query:
the queried state's values, or the NaN sentinel pair on an empty state
list. -/
def stepMeas (env : StepEnv) (j : ℕ) : Meas ℚ × Meas ℚ :=
  match env.state? j with
  | some pv => (Meas.val pv.1, Meas.val pv.2)
  | none => (Meas.nan, Meas.nan)

/-- One hold-period sampling loop of `run_step_test`
(`while time.time() < end_hold`): query state, append the sample
(`stepMeas`) together with a duplicated command entry, timestamped at the
post-query clock, then `await asyncio.sleep(sample_period)` — a relative
sleep of exactly `max sample_period 0`, with no deadline correction. -/
def holdSample (env : StepEnv) (start cmdPos velLimit sample_period end_hold : ℚ) :
    ℕ → StepState → StepState
  | 0, s => s
  | fuel + 1, s =>
    if s.now < end_hold then
      holdSample env start cmdPos velLimit sample_period end_hold fuel
        { now := s.now + env.qryLat s.qidx + max sample_period 0,
          cidx := s.cidx,
          qidx := s.qidx + 1,
          data := s.data.push (s.now + env.qryLat s.qidx - start) cmdPos velLimit
            (s.now + env.qryLat s.qidx - start) (stepMeas env s.qidx).1
            (stepMeas env s.qidx).2 }
    else s

/-- One phase of `run_step_test`: append the phase-start command entry and
the synthesized sample `(fakePos, fakeVel)`, await the command RPC, then
sample for `step_hold_time` (the hold deadline is taken after the command
RPC returns). -/
def stepPhase (env : StepEnv) (start cmdPos velLimit fakePos fakeVel step_hold_time
    sample_period : ℚ) (fuel : ℕ) (s : StepState) : StepState :=
  let t_send := s.now - start
  let d1 := s.data.push t_send cmdPos velLimit t_send (Meas.val fakePos) (Meas.val fakeVel)
  let now1 := s.now + env.cmdLat s.cidx
  holdSample env start cmdPos velLimit sample_period (now1 + step_hold_time) fuel
    { now := now1, cidx := s.cidx + 1, qidx := s.qidx, data := d1 }

/-- The `for _ in range(step_count)` loop of `run_step_test`: each cycle is
a step up to `step_size` (synthesized sample at 0) followed by a step down
to 0 (synthesized sample at `step_size`). -/
def runCycles (env : StepEnv) (start step_size velLimit step_hold_time sample_period : ℚ)
    (fuel : ℕ) : ℕ → StepState → StepState
  | 0, s => s
  | k + 1, s =>
    runCycles env start step_size velLimit step_hold_time sample_period fuel k
      (stepPhase env start 0 velLimit step_size 0 step_hold_time sample_period fuel
        (stepPhase env start step_size velLimit 0 0 step_hold_time sample_period fuel s))

/-- `run_step_test`: configure the actuator, hold at 0 (synthesized sample
at 0), then run `step_count` step cycles.  `sample_period = 1 / sample_rate`. -/
def run_step_test (env : StepEnv) (start t0 step_size step_hold_time sample_rate
    velLimit : ℚ) (step_count fuel : ℕ) : StepState :=
  runCycles env start step_size velLimit step_hold_time (1 / sample_rate) fuel step_count
    (stepPhase env start 0 velLimit 0 0 step_hold_time (1 / sample_rate) fuel
      { now := t0 + env.cfgLat, cidx := 0, qidx := 0, data := DriverRec.empty ℚ })

/-- Gain selection of `run_sine_test`: `(used_kp, used_kd, used_ki)`. -/
def sineUsedGains (kp kd ki sim_kp sim_kv : ℚ) (is_real : Bool) : ℚ × ℚ × ℚ :=
  if is_real then (kp, kd, ki) else (sim_kp, sim_kv, 0)

/-- Gain selection of `run_step_test`: `(used_kp, used_kd, used_ki)`. -/
def stepUsedGains (kp kd ki sim_kp sim_kv : ℚ) (is_real : Bool) : ℚ × ℚ × ℚ :=
  if is_real then (kp, kd, ki) else (sim_kp, sim_kv, ki)

/-- Total scheduling drift of a sampling run that recorded `samples`
samples over `elapsed` seconds at a configured period: the absolute
difference between the elapsed time and the nominal `samples * period`. -/
def schedDrift (samples : ℕ) (period elapsed : ℚ) : ℚ := |elapsed - samples * period|

/-- Record invariant of a step-driver state: the six sequences all have
equal length (the step driver always appends to all six together), both
timestamp sequences are non-decreasing, and every recorded timestamp is
at most the current clock (relative to the shared origin). -/
def stepInv (start : ℚ) (s : StepState) : Prop :=
  s.data.cmd_pos.length = s.data.cmd_time.length ∧
  s.data.cmd_vel.length = s.data.cmd_time.length ∧
  s.data.time.length = s.data.cmd_time.length ∧
  s.data.position.length = s.data.cmd_time.length ∧
  s.data.velocity.length = s.data.cmd_time.length ∧
  List.Pairwise (· ≤ ·) s.data.time ∧
  List.Pairwise (· ≤ ·) s.data.cmd_time ∧
  (∀ x ∈ s.data.time, x ≤ s.now - start) ∧
  (∀ x ∈ s.data.cmd_time, x ≤ s.now - start)

/-! ## Basic facts about the float model and the analyzer -/

theorem FV.mmax_fin (a b : ℚ) : FV.mmax (FV.fin a) (FV.fin b) = FV.fin (max a b) := by
  simp only [FV.mmax, FV.lt]
  by_cases h : a < b
  · simp [h, max_eq_right h.le]
  · simp [h, max_eq_left (not_lt.mp h)]

theorem FV.mmin_fin (a b : ℚ) : FV.mmin (FV.fin a) (FV.fin b) = FV.fin (min a b) := by
  simp only [FV.mmin, FV.lt]
  by_cases h : b < a
  · simp [h, min_eq_right h.le]
  · simp [h, min_eq_left (not_lt.mp h)]

theorem foldl_mmax_map_fin (l : List ℚ) (a : ℚ) :
    (l.map FV.fin).foldl FV.mmax (FV.fin a) = FV.fin (l.foldl max a) := by
  induction l generalizing a with
  | nil => rfl
  | cons h t ih => simp [FV.mmax_fin, ih]

theorem foldl_mmin_map_fin (l : List ℚ) (a : ℚ) :
    (l.map FV.fin).foldl FV.mmin (FV.fin a) = FV.fin (l.foldl min a) := by
  induction l generalizing a with
  | nil => rfl
  | cons h t ih => simp [FV.mmin_fin, ih]

theorem npMax_map_fin (h : ℚ) (t : List ℚ) :
    npMax ((h :: t).map FV.fin) = FV.fin (listMax (h :: t)) := by
  simp [npMax, listMax, foldl_mmax_map_fin]

theorem npMin_map_fin (h : ℚ) (t : List ℚ) :
    npMin ((h :: t).map FV.fin) = FV.fin (listMin (h :: t)) := by
  simp [npMin, listMin, foldl_mmin_map_fin]

theorem clamp0_fin (q : ℚ) : clamp0 (FV.fin q) = FV.fin (max 0 q) := by
  simp only [clamp0, FV.lt]
  by_cases h : (0 : ℚ) < q
  · simp [h, max_eq_right h.le]
  · simp [h, max_eq_left (not_lt.mp h)]

theorem clamp0_not_neg (y : FV) : FV.lt (clamp0 y) (FV.fin 0) = false := by
  cases y with
  | nan => simp [clamp0, FV.lt]
  | pinf => simp [clamp0, FV.lt]
  | ninf => simp [clamp0, FV.lt]
  | fin q =>
    simp only [clamp0, FV.lt]
    by_cases h : (0 : ℚ) < q
    · simp [h, not_lt.mpr h.le, le_of_lt]
    · simp [FV.lt, h]

theorem overshootEntry_some_clamp (ta : List ℚ) (pa : List FV) (wd : ℚ) (tr : ℚ × ℚ × ℚ)
    (x : FV) (h : overshootEntry ta pa wd tr = some x) : ∃ y, x = clamp0 y := by
  simp only [overshootEntry] at h
  split at h
  · exact absurd h (by simp)
  · split at h
    · exact ⟨_, (Option.some_injective _ h).symm⟩
    · exact ⟨_, (Option.some_injective _ h).symm⟩

theorem FV.mmax_nan_left (a : FV) : FV.mmax FV.nan a = FV.nan := by cases a <;> rfl

theorem FV.mmax_nan_right (a : FV) : FV.mmax a FV.nan = FV.nan := by cases a <;> rfl

theorem FV.mmin_nan_left (a : FV) : FV.mmin FV.nan a = FV.nan := by cases a <;> rfl

theorem FV.mmin_nan_right (a : FV) : FV.mmin a FV.nan = FV.nan := by cases a <;> rfl

theorem foldl_mmax_nan (t : List FV) : t.foldl FV.mmax FV.nan = FV.nan := by
  induction t with
  | nil => rfl
  | cons h t ih => simpa [FV.mmax_nan_left] using ih

theorem foldl_mmin_nan (t : List FV) : t.foldl FV.mmin FV.nan = FV.nan := by
  induction t with
  | nil => rfl
  | cons h t ih => simpa [FV.mmin_nan_left] using ih

theorem foldl_mmax_mem_nan (t : List FV) (a : FV) (h : FV.nan ∈ t) :
    t.foldl FV.mmax a = FV.nan := by
  induction t generalizing a with
  | nil => cases h
  | cons x t ih =>
    rcases List.mem_cons.mp h with h1 | h2
    · subst h1
      simp only [List.foldl_cons, FV.mmax_nan_right]
      exact foldl_mmax_nan t
    · exact ih _ h2

theorem foldl_mmin_mem_nan (t : List FV) (a : FV) (h : FV.nan ∈ t) :
    t.foldl FV.mmin a = FV.nan := by
  induction t generalizing a with
  | nil => cases h
  | cons x t ih =>
    rcases List.mem_cons.mp h with h1 | h2
    · subst h1
      simp only [List.foldl_cons, FV.mmin_nan_right]
      exact foldl_mmin_nan t
    · exact ih _ h2

theorem npMax_of_nan_mem (w : List FV) (h : FV.nan ∈ w) : npMax w = FV.nan := by
  cases w with
  | nil => cases h
  | cons x t =>
    rcases List.mem_cons.mp h with h1 | h2
    · subst h1; exact foldl_mmax_nan t
    · exact foldl_mmax_mem_nan t x h2

theorem npMin_of_nan_mem (w : List FV) (h : FV.nan ∈ w) : npMin w = FV.nan := by
  cases w with
  | nil => cases h
  | cons x t =>
    rcases List.mem_cons.mp h with h1 | h2
    · subst h1; exact foldl_mmin_nan t
    · exact foldl_mmin_mem_nan t x h2

theorem transAux_length (l : List (ℚ × ℚ × ℚ)) : ∀ a : ℚ,
    (transAux a l).length = l.length - 1 := by
  induction l with
  | nil => intro a; rfl
  | cons s rest ih =>
    intro a
    cases rest with
    | nil => rfl
    | cons s2 rest2 => simp [transAux, ih (a + s.2.2)]

theorem transAux_time (l : List (ℚ × ℚ × ℚ)) : ∀ (a : ℚ) (i : ℕ) (tr : ℚ × ℚ × ℚ),
    (transAux a l).get? i = some tr →
    tr.2.2 = a + ((l.take (i + 1)).map (fun p => p.2.2)).sum := by
  induction l with
  | nil => intro a i tr h; simp [transAux] at h
  | cons s rest ih =>
    intro a i tr h
    cases rest with
    | nil => simp [transAux] at h
    | cons s2 rest2 =>
      cases i with
      | zero =>
        simp only [transAux, List.get?] at h
        cases h
        simp
      | succ i =>
        simp only [transAux, List.get?] at h
        have := ih (a + s.2.2) i tr h
        simp only [List.take, List.map_cons, List.sum_cons] at *
        rw [this]; ring

theorem stepCyclesList_length (ss v h : ℚ) (n : ℕ) :
    (stepCyclesList ss v h n).length = 2 * n := by
  induction n with
  | zero => rfl
  | succ n ih => simp [stepCyclesList, ih]; ring

/-! ## Claims about the overshoot analyzer -/

/-- C1: for every step transition whose measurement window contains at
least one sample, `compute_step_overshoots` returns, for a rising step,
`(max(window) - new_target) / (new_target - old_target) * 100`, for a
falling step `(new_target - min(window)) / (old_target - new_target) * 100`,
with any negative result clamped to exactly `0.0` so that no returned
overshoot is ever negative; in particular the rising transition 0→10 with
window values `[0, 4, 11, 9, 10]` yields `10.0` and the falling transition
10→0 with window values `[10, 6, -1, 2, 0]` yields `10.0`. -/
theorem overshoot_formula_and_clamp :
    (∀ (ta : List ℚ) (pa : List FV) (ot nt ct wd : ℚ) (h : ℚ) (l : List ℚ),
      windowVals ta pa ct (ct + wd) = (h :: l).map FV.fin → ot < nt →
      overshootEntry ta pa wd (ot, nt, ct) =
        some (FV.fin (max 0 ((listMax (h :: l) - nt) / (nt - ot) * 100)))) ∧
    (∀ (ta : List ℚ) (pa : List FV) (ot nt ct wd : ℚ) (h : ℚ) (l : List ℚ),
      windowVals ta pa ct (ct + wd) = (h :: l).map FV.fin → nt < ot →
      overshootEntry ta pa wd (ot, nt, ct) =
        some (FV.fin (max 0 ((nt - listMin (h :: l)) / (ot - nt) * 100)))) ∧
    (∀ (ta : List ℚ) (pa : List FV) (steps : List (ℚ × ℚ × ℚ)) (wd : ℚ) (x : FV),
      x ∈ compute_step_overshoots ta pa steps wd → FV.lt x (FV.fin 0) = false) ∧
    compute_step_overshoots [3, 16/5, 17/5, 18/5, 19/5]
      [FV.fin 0, FV.fin 4, FV.fin 11, FV.fin 9, FV.fin 10]
      [(0, 400, 3), (10, 400, 3)] 1 = [FV.fin 10] ∧
    compute_step_overshoots [3, 16/5, 17/5, 18/5, 19/5]
      [FV.fin 10, FV.fin 6, FV.fin (-1), FV.fin 2, FV.fin 0]
      [(10, 400, 3), (0, 400, 3)] 1 = [FV.fin 10] := by
  refine ⟨?_, ?_, ?_, ?_, ?_⟩
  · intro ta pa ot nt ct wd h l hw hlt
    have hne : nt - ot ≠ 0 := sub_ne_zero.mpr hlt.ne'
    simp only [overshootEntry, hw]
    rw [if_neg (by simp), if_pos hlt, npMax_map_fin]
    simp [FV.sub, FV.div, FV.mulQ, hne, clamp0_fin]
  · intro ta pa ot nt ct wd h l hw hlt
    have hne : ot - nt ≠ 0 := sub_ne_zero.mpr hlt.ne'
    simp only [overshootEntry, hw]
    rw [if_neg (by simp), if_neg (lt_asymm hlt), npMin_map_fin]
    simp [FV.sub, FV.div, FV.mulQ, hne, clamp0_fin]
  · intro ta pa steps wd x hx
    simp only [compute_step_overshoots] at hx
    rcases List.mem_filterMap.mp hx with ⟨tr, _, htr⟩
    rcases overshootEntry_some_clamp ta pa wd tr x htr with ⟨y, hy⟩
    rw [hy]
    exact clamp0_not_neg y
  · norm_num [compute_step_overshoots, transitions, transAux, overshootEntry, windowVals,
      npMax, FV.mmax, FV.lt, FV.sub, FV.div, FV.mulQ, clamp0,
      List.filterMap_cons, List.zip, List.zipWith, List.filter]
  · norm_num [compute_step_overshoots, transitions, transAux, overshootEntry, windowVals,
      npMin, FV.mmin, FV.lt, FV.sub, FV.div, FV.mulQ, clamp0,
      List.filterMap_cons, List.zip, List.zipWith, List.filter]

/-- Witness for `overshoot_formula_and_clamp`: its rising-step clause
applied to a one-sample window at a concrete input. -/
theorem overshoot_formula_and_clamp_witness :
    windowVals [3] [FV.fin 12] 3 (3 + 1) = ([12] : List ℚ).map FV.fin ∧ (0 : ℚ) < 10 ∧
    overshootEntry [3] [FV.fin 12] 1 (0, 10, 3) =
      some (FV.fin (max 0 ((listMax [12] - 10) / (10 - 0) * 100))) := by
  refine ⟨?_, by norm_num,
    overshoot_formula_and_clamp.1 [3] [FV.fin 12] 0 10 3 1 12 [] ?_ (by norm_num)⟩ <;>
    norm_num [windowVals, List.zip, List.zipWith, List.filter]

/-- C4 counterexample: on a schedule whose two phases share the target 5
(zero-magnitude step) with one sample in the window, the analyzer neither
signals an error nor skips: it silently returns `+inf` in the overshoot
list, produced by the zero divisor. -/
theorem zero_divisor_counterexample :
    compute_step_overshoots [3/2] [FV.fin 4] [(5, 400, 1), (5, 400, 1)] 1 = [FV.pinf] := by
  norm_num [compute_step_overshoots, transitions, transAux, overshootEntry, windowVals,
    npMin, FV.mmin, FV.lt, FV.sub, FV.div, FV.mulQ, clamp0,
    List.filterMap_cons, List.zip, List.zipWith, List.filter]

/-- C4 amended: a zero-magnitude step transition (`old_target ==
new_target`) with a nonempty window is not an error condition and does not
crash: the zero divisor flows through IEEE division, and the emitted entry
is `+inf` (window trough below the target) or `0.0` (the NaN and `-inf`
cases, removed by the clamp) — never an error signal. -/
theorem zero_divisor_flows_to_inf_or_zero :
    ∀ (ta : List ℚ) (pa : List FV) (ot ct wd : ℚ),
      windowVals ta pa ct (ct + wd) ≠ [] →
      overshootEntry ta pa wd (ot, ot, ct) = some FV.pinf ∨
      overshootEntry ta pa wd (ot, ot, ct) = some (FV.fin 0) := by
  intro ta pa ot ct wd h
  simp only [overshootEntry]
  rw [if_neg (by simpa using h), if_neg (lt_irrefl ot), sub_self]
  cases hm : npMin (windowVals ta pa ct (ct + wd)) with
  | nan => right; simp [FV.sub, FV.div, FV.mulQ, clamp0, FV.lt]
  | pinf => right; simp [FV.sub, FV.div, FV.mulQ, clamp0, FV.lt]
  | ninf => left; simp [FV.sub, FV.div, FV.mulQ, clamp0, FV.lt]
  | fin q =>
    rcases lt_trichotomy q ot with hq | hq | hq
    · left
      simp [FV.sub, FV.div, FV.mulQ, clamp0, FV.lt, sub_ne_zero.mpr hq.ne', sub_pos.mpr hq]
    · right
      simp [FV.sub, FV.div, FV.mulQ, clamp0, FV.lt, hq]
    · right
      have h1 : ot - q ≠ 0 := sub_ne_zero.mpr hq.ne
      have h2 : ¬ (0 : ℚ) < ot - q := not_lt.mpr (sub_nonpos.mpr hq.le)
      simp [FV.sub, FV.div, FV.mulQ, clamp0, FV.lt, h1, h2]

/-- Witness for `zero_divisor_flows_to_inf_or_zero` at a concrete input. -/
theorem zero_divisor_flows_witness :
    windowVals [3/2] [FV.fin 4] 1 (1 + 1) ≠ [] ∧
    (overshootEntry [3/2] [FV.fin 4] 1 (5, 5, 1) = some FV.pinf ∨
     overshootEntry [3/2] [FV.fin 4] 1 (5, 5, 1) = some (FV.fin 0)) := by
  refine ⟨?_, zero_divisor_flows_to_inf_or_zero [3/2] [FV.fin 4] 5 1 1 ?_⟩ <;>
    norm_num [windowVals, List.zip, List.zipWith, List.filter]

/-- C5: a step transition whose window `[command_time, command_time +
window_duration]` contains zero recorded samples is omitted from the
overshoot list (no `0.0` or NaN entry), so the returned list can be
shorter than the transition count; concretely a two-transition schedule
with data only in the first window returns a one-entry list. -/
theorem empty_window_transition_skipped :
    (∀ (ta : List ℚ) (pa : List FV) (wd ot nt ct : ℚ),
      windowVals ta pa ct (ct + wd) = [] →
      overshootEntry ta pa wd (ot, nt, ct) = none) ∧
    (∀ (ta : List ℚ) (pa : List FV) (steps : List (ℚ × ℚ × ℚ)) (wd : ℚ),
      (compute_step_overshoots ta pa steps wd).length ≤ (transitions steps).length) ∧
    compute_step_overshoots [7/2] [FV.fin 12] [(0, 400, 3), (10, 400, 3), (0, 400, 3)] 1
      = [FV.fin 20] ∧
    (transitions [((0 : ℚ), (400 : ℚ), (3 : ℚ)), (10, 400, 3), (0, 400, 3)]).length = 2 := by
  refine ⟨?_, ?_, ?_, ?_⟩
  · intro ta pa wd ot nt ct hw
    simp [overshootEntry, hw]
  · intro ta pa steps wd
    exact List.length_filterMap_le _ _
  · norm_num [compute_step_overshoots, transitions, transAux, overshootEntry, windowVals,
      npMax, FV.mmax, FV.lt, FV.sub, FV.div, FV.mulQ, clamp0,
      List.filterMap_cons, List.zip, List.zipWith, List.filter]
  · norm_num [transitions, transAux]

/-- Witness for `empty_window_transition_skipped`: its skip clause applied
to the empty-window transition of the concrete schedule. -/
theorem empty_window_transition_skipped_witness :
    windowVals [7/2] [FV.fin 12] 6 (6 + 1) = [] ∧
    overshootEntry [7/2] [FV.fin 12] 1 (10, 0, 6) = none := by
  refine ⟨?_, empty_window_transition_skipped.1 [7/2] [FV.fin 12] 1 10 0 6 ?_⟩ <;>
    norm_num [windowVals, List.zip, List.zipWith, List.filter]

/-- C10: a NaN sample inside a transition's window propagates through
`np.max`/`np.min`, makes the overshoot expression NaN, and the clamp
`max(0.0, nan)` turns it into exactly `0.0`, masking any real overshoot;
concretely window `[nan, 11]` on the rising step 0→10 reports `0.0`, while
the same window without the NaN reports `10.0`. -/
theorem nan_window_masks_overshoot :
    (∀ (ta : List ℚ) (pa : List FV) (wd ot nt ct : ℚ),
      FV.nan ∈ windowVals ta pa ct (ct + wd) →
      overshootEntry ta pa wd (ot, nt, ct) = some (FV.fin 0)) ∧
    compute_step_overshoots [31/10, 16/5] [FV.nan, FV.fin 11]
      [(0, 400, 3), (10, 400, 3)] 1 = [FV.fin 0] ∧
    compute_step_overshoots [16/5] [FV.fin 11] [(0, 400, 3), (10, 400, 3)] 1
      = [FV.fin 10] := by
  refine ⟨?_, ?_, ?_⟩
  · intro ta pa wd ot nt ct h
    have hne : windowVals ta pa ct (ct + wd) ≠ [] := List.ne_nil_of_mem h
    simp only [overshootEntry]
    rw [if_neg (by simpa using hne)]
    by_cases hlt : ot < nt
    · rw [if_pos hlt, npMax_of_nan_mem _ h]
      simp [FV.sub, FV.div, FV.mulQ, clamp0, FV.lt]
    · rw [if_neg hlt, npMin_of_nan_mem _ h]
      simp [FV.sub, FV.div, FV.mulQ, clamp0, FV.lt]
  · norm_num [compute_step_overshoots, transitions, transAux, overshootEntry, windowVals,
      npMax, FV.mmax, FV.lt, FV.sub, FV.div, FV.mulQ, clamp0,
      List.filterMap_cons, List.zip, List.zipWith, List.filter]
  · norm_num [compute_step_overshoots, transitions, transAux, overshootEntry, windowVals,
      npMax, FV.mmax, FV.lt, FV.sub, FV.div, FV.mulQ, clamp0,
      List.filterMap_cons, List.zip, List.zipWith, List.filter]

/-- Witness for `nan_window_masks_overshoot` at a concrete input. -/
theorem nan_window_masks_overshoot_witness :
    FV.nan ∈ windowVals [31/10] [FV.nan] 3 (3 + 1) ∧
    overshootEntry [31/10] [FV.nan] 1 (0, 10, 3) = some (FV.fin 0) := by
  refine ⟨?_, nan_window_masks_overshoot.1 [31/10] [FV.nan] 1 0 10 3 ?_⟩ <;>
    norm_num [windowVals, List.zip, List.zipWith, List.filter]

/-- C6: the schedule built from the CLI parameters has `2*step_count + 1`
phases, the analyzer considers exactly `2*step_count` transitions, each
transition's nominal command time is the cumulative sum of the hold
durations of all prior phases, and `step_count = 2` with `hold = 3.0`
gives 4 transitions at command times `3.0, 6.0, 9.0, 12.0`. -/
theorem step_schedule_transitions :
    (∀ (ss v h : ℚ) (n : ℕ),
      (buildStepsList ss v h n).length = 2 * n + 1 ∧
      (transitions (buildStepsList ss v h n)).length = 2 * n) ∧
    (∀ (steps : List (ℚ × ℚ × ℚ)) (i : ℕ) (tr : ℚ × ℚ × ℚ),
      (transitions steps).get? i = some tr →
      tr.2.2 = ((steps.take (i + 1)).map (fun p => p.2.2)).sum) ∧
    (transitions (buildStepsList 10 200 3 2)).map (fun tr => tr.2.2) = [3, 6, 9, 12] ∧
    (transitions (buildStepsList 10 200 3 2)).length = 4 := by
  refine ⟨?_, ?_, ?_, ?_⟩
  · intro ss v h n
    have hlen : (buildStepsList ss v h n).length = 2 * n + 1 := by
      simp [buildStepsList, stepCyclesList_length]
    refine ⟨hlen, ?_⟩
    rw [transitions, transAux_length, hlen]
    omega
  · intro steps i tr htr
    simpa using transAux_time steps 0 i tr htr
  · norm_num [transitions, transAux, buildStepsList, stepCyclesList]
  · norm_num [transitions, transAux, buildStepsList, stepCyclesList]

/-- Witness for `step_schedule_transitions`: its command-time clause
applied to the first transition of the concrete schedule. -/
theorem step_schedule_transitions_witness :
    (transitions (buildStepsList 10 200 3 2)).get? 0 = some (0, 10, 3) ∧
    ((0 : ℚ), (10 : ℚ), (3 : ℚ)).2.2 =
      (((buildStepsList 10 200 3 2).take (0 + 1)).map (fun p => p.2.2)).sum := by
  refine ⟨?_, step_schedule_transitions.2.1 (buildStepsList 10 200 3 2) 0 (0, 10, 3) ?_⟩ <;>
    norm_num [transitions, transAux, buildStepsList, stepCyclesList]

/-! ## Facts about the sine driver -/

theorem sineRun_cmd_pos (env : SineEnv α) (start dt : ℚ) (rs : Bool) (t0 : ℚ) (n : ℕ) :
    (sineRun env start dt rs t0 n).data.cmd_pos = (List.range n).map env.posF := by
  induction n with
  | zero => rfl
  | succ n ih =>
    simp [sineRun, sineIter, DriverRec.pushCmd, DriverRec.pushMeas, ih, List.range_succ]

theorem sineRun_cmd_vel (env : SineEnv α) (start dt : ℚ) (rs : Bool) (t0 : ℚ) (n : ℕ) :
    (sineRun env start dt rs t0 n).data.cmd_vel = (List.range n).map env.velF := by
  induction n with
  | zero => rfl
  | succ n ih =>
    simp [sineRun, sineIter, DriverRec.pushCmd, DriverRec.pushMeas, ih, List.range_succ]

theorem sineRun_position (env : SineEnv α) (start dt : ℚ) (rs : Bool) (t0 : ℚ) (n : ℕ) :
    (sineRun env start dt rs t0 n).data.position = (List.range n).map (sineMeasPos env rs) := by
  induction n with
  | zero => rfl
  | succ n ih =>
    simp [sineRun, sineIter, DriverRec.pushCmd, DriverRec.pushMeas, ih, List.range_succ]

theorem sineRun_velocity (env : SineEnv α) (start dt : ℚ) (rs : Bool) (t0 : ℚ) (n : ℕ) :
    (sineRun env start dt rs t0 n).data.velocity = (List.range n).map (sineMeasVel env rs) := by
  induction n with
  | zero => rfl
  | succ n ih =>
    simp [sineRun, sineIter, DriverRec.pushCmd, DriverRec.pushMeas, ih, List.range_succ]

theorem sineRun_cmd_time_length (env : SineEnv α) (start dt : ℚ) (rs : Bool) (t0 : ℚ)
    (n : ℕ) : (sineRun env start dt rs t0 n).data.cmd_time.length = n := by
  induction n with
  | zero => rfl
  | succ n ih =>
    simp [sineRun, sineIter, DriverRec.pushCmd, DriverRec.pushMeas, ih]

theorem sineRun_time_length (env : SineEnv α) (start dt : ℚ) (rs : Bool) (t0 : ℚ)
    (n : ℕ) : (sineRun env start dt rs t0 n).data.time.length = n := by
  induction n with
  | zero => rfl
  | succ n ih =>
    simp [sineRun, sineIter, DriverRec.pushCmd, DriverRec.pushMeas, ih]

/-- The sleep at the end of a sine iteration reaches a deadline that is
still ahead exactly. -/
theorem ite_deadline (x nt : ℚ) (h : x ≤ nt) : (if x < nt then nt else x) = nt := by
  split
  · rfl
  · exact le_antisymm h (not_lt.mp (by assumption))

/-- The sleep at the end of a sine iteration never moves the clock back. -/
theorem le_ite_deadline (x nt : ℚ) : x ≤ (if x < nt then nt else x) := by
  split
  · exact le_of_lt (by assumption)
  · exact le_refl x

/-- Drift correction of the sine loop: as long as each iteration's total
RPC latency stays within one period `dt`, the absolute deadline is always
reached by sleeping, and after `n` iterations the clock is exactly
`t0 + n*dt`. -/
theorem sineRun_clock (env : SineEnv α) (start dt : ℚ) (rs : Bool) (t0 : ℚ)
    (hq : ∀ i, 0 ≤ env.qryLat i)
    (hb : ∀ i, env.cmdLat i + env.qryLat i ≤ dt) :
    ∀ n, (sineRun env start dt rs t0 n).now = t0 + n * dt ∧
         (sineRun env start dt rs t0 n).next_tick = t0 + n * dt := by
  intro n
  induction n with
  | zero => constructor <;> simp [sineRun]
  | succ n ih =>
    obtain ⟨hnow, htick⟩ := ih
    have hle : (sineRun env start dt rs t0 n).now + env.cmdLat n
        + (if rs then env.qryLat n else 0) ≤ (t0 + n * dt) + dt := by
      rw [hnow]
      have h1 : (if rs then env.qryLat n else 0) ≤ env.qryLat n := by
        cases rs <;> simp [hq n]
      linarith [hb n]
    constructor
    · show (sineIter env start dt rs n (sineRun env start dt rs t0 n)).now = _
      simp only [sineIter, htick]
      push_cast
      rw [show t0 + ((n : ℚ) + 1) * dt = (t0 + (n : ℚ) * dt) + dt by ring]
      exact ite_deadline _ _ hle
    · show (sineIter env start dt rs n (sineRun env start dt rs t0 n)).next_tick = _
      simp only [sineIter, htick]
      push_cast
      ring

/-- The sine loop's clock never decreases within one iteration. -/
theorem sineIter_now_le (env : SineEnv α) (start dt : ℚ) (rs : Bool) (i : ℕ)
    (s : SineState α) (hc : 0 ≤ env.cmdLat i) (hq : 0 ≤ env.qryLat i) :
    s.now ≤ (sineIter env start dt rs i s).now ∧
    s.now + env.cmdLat i + (if rs then env.qryLat i else 0)
      ≤ (sineIter env start dt rs i s).now := by
  have h0 : (0:ℚ) ≤ (if rs then env.qryLat i else 0) := by cases rs <;> simp [hq]
  have h3 : s.now + env.cmdLat i + (if rs then env.qryLat i else 0)
      ≤ (sineIter env start dt rs i s).now := by
    simp only [sineIter]
    exact le_ite_deadline _ _
  exact ⟨le_trans (by linarith) h3, h3⟩

/-- Timestamp invariant of the sine loop: both timestamp sequences are
non-decreasing and bounded by the current clock. -/
theorem sineRun_mono (env : SineEnv α) (start dt : ℚ) (rs : Bool) (t0 : ℚ)
    (hc : ∀ i, 0 ≤ env.cmdLat i) (hq : ∀ i, 0 ≤ env.qryLat i) :
    ∀ n, List.Pairwise (· ≤ ·) (sineRun env start dt rs t0 n).data.time ∧
         List.Pairwise (· ≤ ·) (sineRun env start dt rs t0 n).data.cmd_time ∧
         (∀ x ∈ (sineRun env start dt rs t0 n).data.time,
            x ≤ (sineRun env start dt rs t0 n).now - start) ∧
         (∀ x ∈ (sineRun env start dt rs t0 n).data.cmd_time,
            x ≤ (sineRun env start dt rs t0 n).now - start) := by
  intro n
  induction n with
  | zero => simp [sineRun, DriverRec.empty]
  | succ n ih =>
    obtain ⟨hpt, hpc, hut, huc⟩ := ih
    have h0 : (0:ℚ) ≤ (if rs then env.qryLat n else 0) := by cases rs <;> simp [hq]
    have hcn := hc n
    have hnow2 : (sineRun env start dt rs t0 n).now
        ≤ (sineRun env start dt rs t0 n).now + env.cmdLat n
          + (if rs then env.qryLat n else 0) := by linarith
    have hnow3 := (sineIter_now_le env start dt rs n (sineRun env start dt rs t0 n)
      (hc n) (hq n)).2
    have hnow1 := (sineIter_now_le env start dt rs n (sineRun env start dt rs t0 n)
      (hc n) (hq n)).1
    refine ⟨?_, ?_, ?_, ?_⟩
    · show List.Pairwise _ (sineIter env start dt rs n (sineRun env start dt rs t0 n)).data.time
      simp only [sineIter, DriverRec.pushMeas, DriverRec.pushCmd]
      rw [List.pairwise_append]
      refine ⟨hpt, by simp, ?_⟩
      intro a ha b hb
      rw [List.mem_singleton] at hb
      subst hb
      have := hut a ha
      linarith
    · show List.Pairwise _
        (sineIter env start dt rs n (sineRun env start dt rs t0 n)).data.cmd_time
      simp only [sineIter, DriverRec.pushMeas, DriverRec.pushCmd]
      rw [List.pairwise_append]
      refine ⟨hpc, by simp, ?_⟩
      intro a ha b hb
      rw [List.mem_singleton] at hb
      subst hb
      exact huc a ha
    · show ∀ x ∈ (sineIter env start dt rs n (sineRun env start dt rs t0 n)).data.time,
        x ≤ (sineIter env start dt rs n (sineRun env start dt rs t0 n)).now - start
      intro x hx
      simp only [sineIter, DriverRec.pushMeas, DriverRec.pushCmd, List.mem_append,
        List.mem_singleton] at hx
      rcases hx with hx | hx
      · have := hut x hx
        linarith
      · subst hx
        linarith
    · show ∀ x ∈ (sineIter env start dt rs n (sineRun env start dt rs t0 n)).data.cmd_time,
        x ≤ (sineIter env start dt rs n (sineRun env start dt rs t0 n)).now - start
      intro x hx
      simp only [sineIter, DriverRec.pushMeas, DriverRec.pushCmd, List.mem_append,
        List.mem_singleton] at hx
      rcases hx with hx | hx
      · have := huc x hx
        linarith
      · subst hx
        linarith

theorem recExtends_refl (r : DriverRec α) : recExtends r r :=
  ⟨⟨[], by simp⟩, ⟨[], by simp⟩, ⟨[], by simp⟩, ⟨[], by simp⟩, ⟨[], by simp⟩, ⟨[], by simp⟩⟩

theorem recExtends_trans {r1 r2 r3 : DriverRec α} (h1 : recExtends r1 r2)
    (h2 : recExtends r2 r3) : recExtends r1 r3 := by
  obtain ⟨⟨a1, e1⟩, ⟨a2, e2⟩, ⟨a3, e3⟩, ⟨a4, e4⟩, ⟨a5, e5⟩, ⟨a6, e6⟩⟩ := h1
  obtain ⟨⟨b1, f1⟩, ⟨b2, f2⟩, ⟨b3, f3⟩, ⟨b4, f4⟩, ⟨b5, f5⟩, ⟨b6, f6⟩⟩ := h2
  exact ⟨⟨a1 ++ b1, by simp [f1, e1]⟩, ⟨a2 ++ b2, by simp [f2, e2]⟩,
    ⟨a3 ++ b3, by simp [f3, e3]⟩, ⟨a4 ++ b4, by simp [f4, e4]⟩,
    ⟨a5 ++ b5, by simp [f5, e5]⟩, ⟨a6 ++ b6, by simp [f6, e6]⟩⟩

theorem pushCmd_extends (r : DriverRec α) (ct : ℚ) (cp cv : α) :
    recExtends r (r.pushCmd ct cp cv) :=
  ⟨⟨[ct], rfl⟩, ⟨[cp], rfl⟩, ⟨[cv], rfl⟩, ⟨[], by simp [DriverRec.pushCmd]⟩,
    ⟨[], by simp [DriverRec.pushCmd]⟩, ⟨[], by simp [DriverRec.pushCmd]⟩⟩

theorem pushMeas_extends (r : DriverRec α) (t : ℚ) (p v : Meas α) :
    recExtends r (r.pushMeas t p v) :=
  ⟨⟨[], by simp [DriverRec.pushMeas]⟩, ⟨[], by simp [DriverRec.pushMeas]⟩,
    ⟨[], by simp [DriverRec.pushMeas]⟩, ⟨[t], rfl⟩, ⟨[p], rfl⟩, ⟨[v], rfl⟩⟩

theorem push_extends (r : DriverRec α) (ct : ℚ) (cp cv : α) (t : ℚ) (p v : Meas α) :
    recExtends r (r.push ct cp cv t p v) :=
  recExtends_trans (pushCmd_extends r ct cp cv) (pushMeas_extends _ t p v)

theorem sineIter_extends (env : SineEnv α) (start dt : ℚ) (rs : Bool) (i : ℕ)
    (s : SineState α) : recExtends s.data (sineIter env start dt rs i s).data :=
  recExtends_trans (pushCmd_extends s.data _ _ _) (pushMeas_extends _ _ _ _)

theorem sineRun_extends (env : SineEnv α) (start dt : ℚ) (rs : Bool) (t0 : ℚ) :
    ∀ m n, m ≤ n →
    recExtends (sineRun env start dt rs t0 m).data (sineRun env start dt rs t0 n).data := by
  intro m n h
  induction n with
  | zero =>
    have : m = 0 := Nat.le_zero.mp h
    subst this
    exact recExtends_refl _
  | succ n ih =>
    rcases Nat.lt_or_ge m (n + 1) with h1 | h2
    · exact recExtends_trans (ih (Nat.lt_succ_iff.mp h1))
        (sineIter_extends env start dt rs n _)
    · have : m = n + 1 := le_antisymm h h2
      subst this
      exact recExtends_refl _

/-! ## Facts about the step driver -/

/-- Appending one aligned entry to all six sequences preserves the step
record invariant, provided the new timestamp is between the old clock and
the new clock. -/
theorem push_stepInv (start : ℚ) (s : StepState) (c q : ℕ) (τ cp cv : ℚ)
    (p v : Meas ℚ) (now' : ℚ) (hinv : stepInv start s)
    (hτ1 : s.now - start ≤ τ) (hτ2 : τ ≤ now' - start) :
    stepInv start { now := now',
                    cidx := c,
                    qidx := q,
                    data := s.data.push τ cp cv τ p v } := by
  obtain ⟨h1, h2, h3, h4, h5, hp1, hp2, hu1, hu2⟩ := hinv
  have hnow : s.now - start ≤ now' - start := le_trans hτ1 hτ2
  refine ⟨?_, ?_, ?_, ?_, ?_, ?_, ?_, ?_, ?_⟩ <;>
    simp only [DriverRec.push, DriverRec.pushCmd, DriverRec.pushMeas]
  · simp [h1]
  · simp [h2]
  · simp [h3]
  · simp [h4]
  · simp [h5]
  · rw [List.pairwise_append]
    refine ⟨hp1, by simp, ?_⟩
    intro a ha b hb
    rw [List.mem_singleton] at hb
    subst hb
    exact le_trans (hu1 a ha) hτ1
  · rw [List.pairwise_append]
    refine ⟨hp2, by simp, ?_⟩
    intro a ha b hb
    rw [List.mem_singleton] at hb
    subst hb
    exact le_trans (hu2 a ha) hτ1
  · intro x hx
    rcases List.mem_append.mp hx with hx | hx
    · exact le_trans (hu1 x hx) hnow
    · rw [List.mem_singleton] at hx
      subst hx
      exact hτ2
  · intro x hx
    rcases List.mem_append.mp hx with hx | hx
    · exact le_trans (hu2 x hx) hnow
    · rw [List.mem_singleton] at hx
      subst hx
      exact hτ2

theorem holdSample_stepInv (env : StepEnv) (start cp vl sp eh : ℚ)
    (hq : ∀ i, 0 ≤ env.qryLat i) :
    ∀ (fuel : ℕ) (s : StepState), stepInv start s →
    stepInv start (holdSample env start cp vl sp eh fuel s) := by
  intro fuel
  induction fuel with
  | zero => intro s h; exact h
  | succ fuel ih =>
    intro s h
    unfold holdSample
    split
    · apply ih
      apply push_stepInv start s _ _ _ _ _ _ _ _ h
      · have := hq s.qidx
        linarith
      · have : (0:ℚ) ≤ max sp 0 := le_max_right sp 0
        linarith
    · exact h

theorem stepPhase_stepInv (env : StepEnv) (start cp vl fp fv hold sp : ℚ)
    (hc : ∀ i, 0 ≤ env.cmdLat i) (hq : ∀ i, 0 ≤ env.qryLat i)
    (fuel : ℕ) (s : StepState) (h : stepInv start s) :
    stepInv start (stepPhase env start cp vl fp fv hold sp fuel s) := by
  unfold stepPhase
  apply holdSample_stepInv env start cp vl sp _ hq
  apply push_stepInv start s _ _ _ _ _ _ _ _ h le_rfl
  have := hc s.cidx
  linarith

theorem runCycles_stepInv (env : StepEnv) (start ss vl hold sp : ℚ)
    (hc : ∀ i, 0 ≤ env.cmdLat i) (hq : ∀ i, 0 ≤ env.qryLat i) (fuel : ℕ) :
    ∀ (k : ℕ) (s : StepState), stepInv start s →
    stepInv start (runCycles env start ss vl hold sp fuel k s) := by
  intro k
  induction k with
  | zero => intro s h; exact h
  | succ k ih =>
    intro s h
    exact ih _ (stepPhase_stepInv env start _ _ _ _ _ _ hc hq fuel _
      (stepPhase_stepInv env start _ _ _ _ _ _ hc hq fuel s h))

theorem run_step_test_stepInv (env : StepEnv) (start t0 ss hold rate vl : ℚ)
    (count fuel : ℕ) (hc : ∀ i, 0 ≤ env.cmdLat i) (hq : ∀ i, 0 ≤ env.qryLat i) :
    stepInv start (run_step_test env start t0 ss hold rate vl count fuel) := by
  unfold run_step_test
  apply runCycles_stepInv env start _ _ _ _ hc hq
  apply stepPhase_stepInv env start _ _ _ _ _ _ hc hq
  refine ⟨rfl, rfl, rfl, rfl, rfl, ?_, ?_, ?_, ?_⟩ <;>
    simp [DriverRec.empty]

theorem holdSample_extends (env : StepEnv) (start cp vl sp eh : ℚ) :
    ∀ (fuel : ℕ) (s : StepState),
    recExtends s.data (holdSample env start cp vl sp eh fuel s).data := by
  intro fuel
  induction fuel with
  | zero => intro s; exact recExtends_refl _
  | succ fuel ih =>
    intro s
    unfold holdSample
    split
    · exact recExtends_trans (push_extends _ _ _ _ _ _ _) (ih _)
    · exact recExtends_refl _

theorem stepPhase_extends (env : StepEnv) (start cp vl fp fv hold sp : ℚ)
    (fuel : ℕ) (s : StepState) :
    recExtends s.data (stepPhase env start cp vl fp fv hold sp fuel s).data := by
  unfold stepPhase
  exact recExtends_trans (push_extends _ _ _ _ _ _ _) (holdSample_extends _ _ _ _ _ _ _ _)

theorem runCycles_extends (env : StepEnv) (start ss vl hold sp : ℚ) (fuel : ℕ) :
    ∀ (k : ℕ) (s : StepState),
    recExtends s.data (runCycles env start ss vl hold sp fuel k s).data := by
  intro k
  induction k with
  | zero => intro s; exact recExtends_refl _
  | succ k ih =>
    intro s
    exact recExtends_trans (stepPhase_extends _ _ _ _ _ _ _ _ _ _)
      (recExtends_trans (stepPhase_extends _ _ _ _ _ _ _ _ _ _) (ih _))

/-- With a constant per-query latency `L`, every iteration of a hold
sampling loop advances the clock by exactly `L + max sample_period 0`
(relative sleep, no deadline correction): after the loop, the clock has
advanced by `k * (L + max sp 0)` where `k` is the number of samples
taken. -/
theorem holdSample_advance (env : StepEnv) (start cp vl sp eh : ℚ) (L : ℚ)
    (hL : ∀ i, env.qryLat i = L) :
    ∀ (fuel : ℕ) (s : StepState),
    ∃ k : ℕ, (holdSample env start cp vl sp eh fuel s).data.time.length
        = s.data.time.length + k ∧
      (holdSample env start cp vl sp eh fuel s).now = s.now + k * (L + max sp 0) := by
  intro fuel
  induction fuel with
  | zero => intro s; exact ⟨0, by simp [holdSample], by simp [holdSample]⟩
  | succ fuel ih =>
    intro s
    by_cases h : s.now < eh
    · obtain ⟨k, hk1, hk2⟩ := ih
        { now := s.now + env.qryLat s.qidx + max sp 0,
          cidx := s.cidx,
          qidx := s.qidx + 1,
          data := s.data.push (s.now + env.qryLat s.qidx - start) cp vl
            (s.now + env.qryLat s.qidx - start) (stepMeas env s.qidx).1
            (stepMeas env s.qidx).2 }
      refine ⟨k + 1, ?_, ?_⟩
      · show (holdSample env start cp vl sp eh (fuel + 1) s).data.time.length = _
        rw [holdSample, if_pos h, hk1]
        simp [DriverRec.push, DriverRec.pushCmd, DriverRec.pushMeas]
        omega
      · show (holdSample env start cp vl sp eh (fuel + 1) s).now = _
        rw [holdSample, if_pos h, hk2, hL s.qidx]
        push_cast
        ring
    · rw [holdSample, if_neg h]
      exact ⟨0, by simp, by simp⟩

/-- A state query that returns no state still appends a sample: the NaN
sentinel lands at the next index of the position/velocity sequences, and
the loop goes on. -/
theorem holdSample_first_miss (env : StepEnv) (start cp vl sp eh : ℚ) (fuel : ℕ)
    (s : StepState) (h : s.now < eh) (hmiss : env.state? s.qidx = none) :
    (holdSample env start cp vl sp eh (fuel + 1) s).data.position.get?
        s.data.position.length = some Meas.nan ∧
    (holdSample env start cp vl sp eh (fuel + 1) s).data.velocity.get?
        s.data.velocity.length = some Meas.nan := by
  rw [holdSample, if_pos h]
  obtain ⟨-, -, -, -, ⟨lp, hlp⟩, ⟨lv, hlv⟩⟩ :=
    holdSample_extends env start cp vl sp eh fuel
      { now := s.now + env.qryLat s.qidx + max sp 0,
        cidx := s.cidx,
        qidx := s.qidx + 1,
        data := s.data.push (s.now + env.qryLat s.qidx - start) cp vl
          (s.now + env.qryLat s.qidx - start) (stepMeas env s.qidx).1
          (stepMeas env s.qidx).2 }
  constructor
  · rw [hlp]
    simp only [DriverRec.push, DriverRec.pushCmd, DriverRec.pushMeas, stepMeas, hmiss,
      List.append_assoc]
    rw [List.get?_append_right (le_refl _)]
    simp
  · rw [hlv]
    simp only [DriverRec.push, DriverRec.pushCmd, DriverRec.pushMeas, stepMeas, hmiss,
      List.append_assoc]
    rw [List.get?_append_right (le_refl _)]
    simp

/-- Whether state queries return states or not has no effect on the
sampling loop's control flow: two environments with the same latencies
produce the same sampling timeline (same timestamps, same clock, same
number of samples) — a miss never shortens or ends the run. -/
theorem holdSample_miss_indep (env env' : StepEnv) (hq : env.qryLat = env'.qryLat)
    (start cp vl sp eh : ℚ) :
    ∀ (fuel : ℕ) (s s' : StepState), s.now = s'.now → s.qidx = s'.qidx →
    s.data.time = s'.data.time → s.data.position.length = s'.data.position.length →
    (holdSample env start cp vl sp eh fuel s).data.time
      = (holdSample env' start cp vl sp eh fuel s').data.time ∧
    (holdSample env start cp vl sp eh fuel s).now
      = (holdSample env' start cp vl sp eh fuel s').now ∧
    (holdSample env start cp vl sp eh fuel s).data.position.length
      = (holdSample env' start cp vl sp eh fuel s').data.position.length := by
  intro fuel
  induction fuel with
  | zero => intro s s' h1 h2 h3 h4; exact ⟨h3, h1, h4⟩
  | succ fuel ih =>
    intro s s' h1 h2 h3 h4
    by_cases h : s.now < eh
    · have h' : s'.now < eh := h1 ▸ h
      rw [holdSample, if_pos h]
      rw [show holdSample env' start cp vl sp eh (fuel + 1) s'
          = holdSample env' start cp vl sp eh fuel
            { now := s'.now + env'.qryLat s'.qidx + max sp 0,
              cidx := s'.cidx,
              qidx := s'.qidx + 1,
              data := s'.data.push (s'.now + env'.qryLat s'.qidx - start) cp vl
                (s'.now + env'.qryLat s'.qidx - start) (stepMeas env' s'.qidx).1
                (stepMeas env' s'.qidx).2 } by rw [holdSample, if_pos h']]
      apply ih
      · simp [h1, h2, hq]
      · simp [h2]
      · simp [DriverRec.push, DriverRec.pushCmd, DriverRec.pushMeas, h3, h1, h2, hq]
      · simp [DriverRec.push, DriverRec.pushCmd, DriverRec.pushMeas, h4]
    · have h' : ¬ s'.now < eh := h1 ▸ h
      rw [holdSample, if_neg h]
      rw [show holdSample env' start cp vl sp eh (fuel + 1) s' = s' by
        rw [holdSample, if_neg h']]
      exact ⟨h3, h1, h4⟩

/-! ## Claims about the drivers -/

/-- C2 counterexample: the step driver does not use drift-corrected
scheduling.  With a 1 s query latency, a 1 Hz sample rate and a 4 s hold,
its relative `sleep(sample_period)` pacing records only 2 samples (at 1 s
and 3 s) where the configured rate calls for 4: the run's scheduling drift
is 2 sample periods, not less than one. -/
theorem step_driver_drift_counterexample :
    (run_step_test ⟨0, fun _ => 0, fun _ => 1, fun _ => none⟩ 0 0 10 4 1 400 0 8).data.time
      = [0, 1, 3] ∧
    schedDrift 2 1 4 = 2 ∧ ¬ schedDrift 2 1 4 < 1 := by
  refine ⟨?_, ?_, ?_⟩
  · norm_num [run_step_test, runCycles, stepPhase, holdSample, stepMeas, DriverRec.push,
      DriverRec.pushCmd, DriverRec.pushMeas, DriverRec.empty, max_def]
  · rw [schedDrift]
    rw [show (4:ℚ) - (2:ℕ) * 1 = 2 by push_cast; ring]
    norm_num
  · rw [schedDrift]
    rw [show (4:ℚ) - (2:ℕ) * 1 = 2 by push_cast; ring]
    norm_num

/-- C2 amended: only the sine driver uses drift-corrected scheduling
(absolute deadlines `next_tick += dt`, no sleep once a deadline has
passed): whenever each iteration's I/O latency stays within one period,
its clock after `n` iterations is exactly `t0 + n*dt`, so the achieved
rate equals the configured rate (zero drift, less than one period).  The
step driver instead sleeps a fixed relative `sample_period` after every
sample, so with constant per-query latency `L` each hold iteration
advances the clock by `L + sample_period`, and its achieved rate falls
below the configured rate with drift growing linearly in the sample
count. -/
theorem drift_correction_amended :
    (∀ (α : Type) (env : SineEnv α) (start dt : ℚ) (rs : Bool) (t0 : ℚ) (n : ℕ),
      0 < dt → (∀ i, 0 ≤ env.cmdLat i) → (∀ i, 0 ≤ env.qryLat i) →
      (∀ i, env.cmdLat i + env.qryLat i ≤ dt) →
      (sineRun env start dt rs t0 n).now = t0 + n * dt ∧
      schedDrift n dt ((sineRun env start dt rs t0 n).now - t0) = 0 ∧
      schedDrift n dt ((sineRun env start dt rs t0 n).now - t0) < dt) ∧
    (∀ (env : StepEnv) (start cp vl sp eh L : ℚ), (∀ i, env.qryLat i = L) →
      ∀ (fuel : ℕ) (s : StepState),
      ∃ k : ℕ, (holdSample env start cp vl sp eh fuel s).data.time.length
          = s.data.time.length + k ∧
        (holdSample env start cp vl sp eh fuel s).now = s.now + k * (L + max sp 0)) := by
  constructor
  · intro α env start dt rs t0 n hdt hc hq hb
    have h := (sineRun_clock env start dt rs t0 hq hb n).1
    have hz : schedDrift n dt ((sineRun env start dt rs t0 n).now - t0) = 0 := by
      rw [schedDrift, h]
      rw [show t0 + (n : ℚ) * dt - t0 - (n : ℚ) * dt = 0 by ring]
      exact abs_zero
    exact ⟨h, hz, by rw [hz]; exact hdt⟩
  · intro env start cp vl sp eh L hL fuel s
    exact holdSample_advance env start cp vl sp eh L hL fuel s

/-- Witness for `drift_correction_amended`: both clauses applied at
concrete inputs (a zero-latency sine environment over two iterations, and
the unit-latency hold loop of the counterexample). -/
theorem drift_correction_amended_witness :
    ((0:ℚ) < 1 ∧
      (sineRun (⟨fun _ => (0:ℚ), fun _ => 0, fun _ => 0, fun _ => 0, fun _ => none⟩ :
        SineEnv ℚ) 0 1 true 0 2).now = 0 + (2 : ℕ) * 1) ∧
    (∃ k : ℕ, (holdSample ⟨0, fun _ => 0, fun _ => 1, fun _ => none⟩ 0 0 400 1 4 8
        ⟨0, 0, 0, DriverRec.empty ℚ⟩).data.time.length
          = (DriverRec.empty ℚ).time.length + k ∧
      (holdSample ⟨0, fun _ => 0, fun _ => 1, fun _ => none⟩ 0 0 400 1 4 8
        ⟨0, 0, 0, DriverRec.empty ℚ⟩).now = 0 + k * (1 + max 1 0)) := by
  constructor
  · exact ⟨by norm_num,
      (drift_correction_amended.1 ℚ ⟨fun _ => (0:ℚ), fun _ => 0, fun _ => 0, fun _ => 0,
        fun _ => none⟩ 0 1 true 0 2 (by norm_num) (fun i => le_rfl) (fun i => le_rfl)
        (fun i => by norm_num)).1⟩
  · exact drift_correction_amended.2 ⟨0, fun _ => 0, fun _ => 1, fun _ => none⟩
      0 0 400 1 4 1 (fun i => rfl) 8 ⟨0, 0, 0, DriverRec.empty ℚ⟩

/-- C3 counterexample: `cmd_vel[i]` is the analytic derivative at the
nominal time `i*dt`, not at the recorded wall-clock timestamp
`cmd_time[i]`.  In a run whose loop starts 0.25 s after the shared origin
(`start_time` precedes the loop by the configure RPC and process startup),
`cmd_time[0] = 1/4` while `cmd_vel[0] = 2π = amp·2πf·cos(0)`, which
differs from `amp·2πf·cos(2πf · cmd_time[0]) = 2π·cos(π/2) = 0`. -/
theorem sine_velocity_at_cmd_time_counterexample :
    (sineRun (⟨sineCmdPos 1 1 ((1/50 : ℚ) : ℝ), sineCmdVel 1 1 ((1/50 : ℚ) : ℝ),
        fun _ => 0, fun _ => 0, fun _ => none⟩ : SineEnv ℝ)
      0 (1/50) true (1/4) 1).data.cmd_time.get? 0 = some (1/4) ∧
    (sineRun (⟨sineCmdPos 1 1 ((1/50 : ℚ) : ℝ), sineCmdVel 1 1 ((1/50 : ℚ) : ℝ),
        fun _ => 0, fun _ => 0, fun _ => none⟩ : SineEnv ℝ)
      0 (1/50) true (1/4) 1).data.cmd_vel.get? 0
      = some (sineCmdVel 1 1 ((1/50 : ℚ) : ℝ) 0) ∧
    sineCmdVel 1 1 ((1/50 : ℚ) : ℝ) 0
      ≠ 1 * (2 * Real.pi * 1) * Real.cos (2 * Real.pi * 1 * ((1/4 : ℚ) : ℝ)) := by
  refine ⟨?_, ?_, ?_⟩
  · norm_num [sineRun, sineIter, DriverRec.pushCmd, DriverRec.pushMeas, DriverRec.empty]
  · rw [sineRun_cmd_vel]
    simp
  · have h1 : sineCmdVel 1 1 ((1/50 : ℚ) : ℝ) 0 = 2 * Real.pi := by
      norm_num [sineCmdVel]
    have h2 : (1:ℝ) * (2 * Real.pi * 1) * Real.cos (2 * Real.pi * 1 * ((1/4 : ℚ) : ℝ))
        = 0 := by
      have harg : (2 : ℝ) * Real.pi * 1 * ((1/4 : ℚ) : ℝ) = Real.pi / 2 := by
        push_cast
        ring
      rw [harg, Real.cos_pi_div_two, mul_zero]
    rw [h1, h2]
    exact Real.two_pi_pos.ne'

/-- C3 amended: in sine mode the driver runs exactly
`floor(duration * command_rate)` iterations, commands
`amplitude·sin(2πf·t)` and `amplitude·2πf·cos(2πf·t)` at iteration `i`
with `t = i/command_rate` the nominal time, and the commanded velocity is
the exact analytic derivative of the commanded position profile evaluated
at that nominal time `i*dt` — not at the recorded wall-clock timestamp
`cmd_time[i]`, which includes startup latency and can differ from it. -/
theorem sine_command_profile_amended :
    (∀ duration rate : ℚ, 0 < rate → 0 ≤ duration →
      sineNumSteps duration rate = ⌊duration * rate⌋) ∧
    (∀ (amp freq : ℝ) (dtq : ℚ) (env : SineEnv ℝ) (start : ℚ) (rs : Bool) (t0 : ℚ)
      (n i : ℕ), i < n →
      env.posF = sineCmdPos amp freq (dtq : ℝ) →
      env.velF = sineCmdVel amp freq (dtq : ℝ) →
      (sineRun env start dtq rs t0 n).data.cmd_pos.get? i
        = some (sineCmdPos amp freq (dtq : ℝ) i) ∧
      (sineRun env start dtq rs t0 n).data.cmd_vel.get? i
        = some (sineCmdVel amp freq (dtq : ℝ) i) ∧
      HasDerivAt (fun t : ℝ => amp * Real.sin (2 * Real.pi * freq * t))
        (sineCmdVel amp freq (dtq : ℝ) i) ((i : ℝ) * (dtq : ℝ))) ∧
    (∀ (amp freq : ℝ) (cmdLat qryLat : ℕ → ℚ) (state? : ℕ → Option (ℝ × ℝ))
      (start t0 duration rate : ℚ) (rs : Bool) (i : ℕ),
      i < (sineNumSteps duration rate).toNat →
      (run_sine_test amp freq cmdLat qryLat state? start t0 duration rate
          rs).data.cmd_pos.get? i = some (sineCmdPos amp freq ((1 / rate : ℚ) : ℝ) i) ∧
      (run_sine_test amp freq cmdLat qryLat state? start t0 duration rate
          rs).data.cmd_vel.get? i = some (sineCmdVel amp freq ((1 / rate : ℚ) : ℝ) i) ∧
      HasDerivAt (fun t : ℝ => amp * Real.sin (2 * Real.pi * freq * t))
        (sineCmdVel amp freq ((1 / rate : ℚ) : ℝ) i) ((i : ℝ) * ((1 / rate : ℚ) : ℝ))) := by
  have h2 : ∀ (amp freq : ℝ) (dtq : ℚ) (env : SineEnv ℝ) (start : ℚ) (rs : Bool) (t0 : ℚ)
      (n i : ℕ), i < n →
      env.posF = sineCmdPos amp freq (dtq : ℝ) →
      env.velF = sineCmdVel amp freq (dtq : ℝ) →
      (sineRun env start dtq rs t0 n).data.cmd_pos.get? i
        = some (sineCmdPos amp freq (dtq : ℝ) i) ∧
      (sineRun env start dtq rs t0 n).data.cmd_vel.get? i
        = some (sineCmdVel amp freq (dtq : ℝ) i) ∧
      HasDerivAt (fun t : ℝ => amp * Real.sin (2 * Real.pi * freq * t))
        (sineCmdVel amp freq (dtq : ℝ) i) ((i : ℝ) * (dtq : ℝ)) := by
    intro amp freq dtq env start rs t0 n i hi hp hv
    refine ⟨?_, ?_, ?_⟩
    · rw [sineRun_cmd_pos, List.get?_map, List.get?_range hi, hp]
      rfl
    · rw [sineRun_cmd_vel, List.get?_map, List.get?_range hi, hv]
      rfl
    · have h3 : HasDerivAt (fun t : ℝ => amp * Real.sin (2 * Real.pi * freq * t))
          (amp * (Real.cos (2 * Real.pi * freq * ((i:ℝ) * (dtq:ℝ)))
            * (2 * Real.pi * freq * 1))) ((i:ℝ) * (dtq:ℝ)) :=
        ((Real.hasDerivAt_sin _).comp _
          ((hasDerivAt_id _).const_mul (2 * Real.pi * freq))).const_mul amp
      have hval : sineCmdVel amp freq (dtq : ℝ) i
          = amp * (Real.cos (2 * Real.pi * freq * ((i:ℝ) * (dtq:ℝ)))
            * (2 * Real.pi * freq * 1)) := by
        rw [sineCmdVel]
        ring
      rw [hval]
      exact h3
  refine ⟨?_, h2, ?_⟩
  · intro duration rate hr hd
    rw [sineNumSteps, pyInt]
    have h1 : duration / (1 / rate) = duration * rate := by
      field_simp
    rw [h1, if_pos (mul_nonneg hd hr.le)]
  · intro amp freq cl ql st start t0 duration rate rs i hi
    simp only [run_sine_test]
    exact h2 amp freq (1 / rate) _ start rs t0 _ i hi rfl rfl

/-- Witness for `sine_command_profile_amended` at the default CLI
configuration (duration 5 s, rate 50 Hz, amplitude 1, frequency 1). -/
theorem sine_command_profile_amended_witness :
    ((0:ℚ) < 50 ∧ (0:ℚ) ≤ 5 ∧ sineNumSteps 5 50 = ⌊(5:ℚ) * 50⌋) ∧
    ((0:ℕ) < 1 ∧
      HasDerivAt (fun t : ℝ => 1 * Real.sin (2 * Real.pi * 1 * t))
        (sineCmdVel 1 1 ((1/50 : ℚ) : ℝ) 0) (((0:ℕ) : ℝ) * ((1/50 : ℚ) : ℝ))) := by
  refine ⟨⟨by norm_num, by norm_num,
    sine_command_profile_amended.1 5 50 (by norm_num) (by norm_num)⟩, ⟨by norm_num, ?_⟩⟩
  exact (sine_command_profile_amended.2.1 1 1 (1/50)
    ⟨sineCmdPos 1 1 ((1/50 : ℚ) : ℝ), sineCmdVel 1 1 ((1/50 : ℚ) : ℝ), fun _ => 0,
      fun _ => 0, fun _ => none⟩ 0 true 0 1 0 (by norm_num) rfl rfl).2.2

/-- C7: in every driver run the three measurement sequences share one
length and the three command sequences share one length (in step mode all
six are equal), both `time` and `cmd_time` are non-decreasing, and every
stage of a run only appends to the record (never reorders): each earlier
state's record is a prefix of each later one's. -/
theorem record_invariants :
    (∀ (α : Type) (env : SineEnv α) (start dt : ℚ) (rs : Bool) (t0 : ℚ) (n : ℕ),
      (∀ i, 0 ≤ env.cmdLat i) → (∀ i, 0 ≤ env.qryLat i) →
      ((sineRun env start dt rs t0 n).data.time.length = n ∧
       (sineRun env start dt rs t0 n).data.position.length = n ∧
       (sineRun env start dt rs t0 n).data.velocity.length = n ∧
       (sineRun env start dt rs t0 n).data.cmd_time.length = n ∧
       (sineRun env start dt rs t0 n).data.cmd_pos.length = n ∧
       (sineRun env start dt rs t0 n).data.cmd_vel.length = n) ∧
      List.Pairwise (· ≤ ·) (sineRun env start dt rs t0 n).data.time ∧
      List.Pairwise (· ≤ ·) (sineRun env start dt rs t0 n).data.cmd_time ∧
      (∀ m, m ≤ n → recExtends (sineRun env start dt rs t0 m).data
        (sineRun env start dt rs t0 n).data)) ∧
    (∀ (env : StepEnv) (start t0 ss hold rate vl : ℚ) (count fuel : ℕ),
      (∀ i, 0 ≤ env.cmdLat i) → (∀ i, 0 ≤ env.qryLat i) →
      stepInv start (run_step_test env start t0 ss hold rate vl count fuel)) ∧
    (∀ (env : StepEnv) (start cp vl fp fv hold sp : ℚ) (fuel : ℕ) (s : StepState),
      recExtends s.data (stepPhase env start cp vl fp fv hold sp fuel s).data) ∧
    (∀ (env : StepEnv) (start ss vl hold sp : ℚ) (fuel k : ℕ) (s : StepState),
      recExtends s.data (runCycles env start ss vl hold sp fuel k s).data) := by
  refine ⟨?_, ?_, ?_, ?_⟩
  · intro α env start dt rs t0 n hc hq
    obtain ⟨hpt, hpc, -, -⟩ := sineRun_mono env start dt rs t0 hc hq n
    refine ⟨⟨?_, ?_, ?_, ?_, ?_, ?_⟩, hpt, hpc, ?_⟩
    · exact sineRun_time_length env start dt rs t0 n
    · rw [sineRun_position]; simp
    · rw [sineRun_velocity]; simp
    · exact sineRun_cmd_time_length env start dt rs t0 n
    · rw [sineRun_cmd_pos]; simp
    · rw [sineRun_cmd_vel]; simp
    · intro m hm
      exact sineRun_extends env start dt rs t0 m n hm
  · intro env start t0 ss hold rate vl count fuel hc hq
    exact run_step_test_stepInv env start t0 ss hold rate vl count fuel hc hq
  · intro env start cp vl fp fv hold sp fuel s
    exact stepPhase_extends env start cp vl fp fv hold sp fuel s
  · intro env start ss vl hold sp fuel k s
    exact runCycles_extends env start ss vl hold sp fuel k s

/-- Witness for `record_invariants`: its sine clause at a zero-latency
one-iteration run and its step clause at the unit-latency run of the
drift counterexample. -/
theorem record_invariants_witness :
    List.Pairwise (· ≤ ·) (sineRun (⟨fun _ => (0:ℚ), fun _ => 0, fun _ => 0, fun _ => 0,
      fun _ => none⟩ : SineEnv ℚ) 0 1 true 0 1).data.time ∧
    stepInv 0 (run_step_test ⟨0, fun _ => 0, fun _ => 1, fun _ => none⟩ 0 0 10 4 1 400 0 8) := by
  constructor
  · exact (record_invariants.1 ℚ ⟨fun _ => (0:ℚ), fun _ => 0, fun _ => 0, fun _ => 0,
      fun _ => none⟩ 0 1 true 0 1 (fun i => le_rfl) (fun i => le_rfl)).2.1
  · exact record_invariants.2.1 ⟨0, fun _ => 0, fun _ => 1, fun _ => none⟩ 0 0 10 4 1 400 0 8
      (fun i => le_rfl) (fun i => by norm_num)

/-- C8: a state query that returns no state is recovered locally in both
drivers: a sample is still appended with position and velocity recorded as
the NaN sentinel at the aligned index, the sine loop still runs all of its
configured iterations (its lengths do not depend on query outcomes), and
the step sampling loop's timeline (timestamps, clock and sample count) is
identical to that of a run whose queries all succeed. -/
theorem measurement_miss_recovery :
    (∀ (α : Type) (env : SineEnv α) (start dt t0 : ℚ) (n i : ℕ), i < n →
      env.state? i = none →
      (sineRun env start dt true t0 n).data.position.get? i = some Meas.nan ∧
      (sineRun env start dt true t0 n).data.velocity.get? i = some Meas.nan) ∧
    (∀ (α : Type) (env : SineEnv α) (start dt : ℚ) (rs : Bool) (t0 : ℚ) (n : ℕ),
      (sineRun env start dt rs t0 n).data.time.length = n ∧
      (sineRun env start dt rs t0 n).data.position.length = n) ∧
    (∀ (env : StepEnv) (start cp vl sp eh : ℚ) (fuel : ℕ) (s : StepState),
      s.now < eh → env.state? s.qidx = none →
      (holdSample env start cp vl sp eh (fuel + 1) s).data.position.get?
          s.data.position.length = some Meas.nan ∧
      (holdSample env start cp vl sp eh (fuel + 1) s).data.velocity.get?
          s.data.velocity.length = some Meas.nan) ∧
    (∀ (env env' : StepEnv), env.qryLat = env'.qryLat →
      ∀ (start cp vl sp eh : ℚ) (fuel : ℕ) (s : StepState),
      (holdSample env start cp vl sp eh fuel s).data.time
        = (holdSample env' start cp vl sp eh fuel s).data.time ∧
      (holdSample env start cp vl sp eh fuel s).now
        = (holdSample env' start cp vl sp eh fuel s).now ∧
      (holdSample env start cp vl sp eh fuel s).data.position.length
        = (holdSample env' start cp vl sp eh fuel s).data.position.length) := by
  refine ⟨?_, ?_, ?_, ?_⟩
  · intro α env start dt t0 n i hi hmiss
    constructor
    · rw [sineRun_position, List.get?_map, List.get?_range hi]
      simp [sineMeasPos, hmiss]
    · rw [sineRun_velocity, List.get?_map, List.get?_range hi]
      simp [sineMeasVel, hmiss]
  · intro α env start dt rs t0 n
    refine ⟨sineRun_time_length env start dt rs t0 n, ?_⟩
    rw [sineRun_position]
    simp
  · intro env start cp vl sp eh fuel s h hmiss
    exact holdSample_first_miss env start cp vl sp eh fuel s h hmiss
  · intro env env' hq start cp vl sp eh fuel s
    exact holdSample_miss_indep env env' hq start cp vl sp eh fuel s s rfl rfl rfl rfl

/-- Witness for `measurement_miss_recovery`: its sine clause at a run
whose single query misses, and its step clause at a first-query miss. -/
theorem measurement_miss_recovery_witness :
    ((0:ℕ) < 1 ∧
      (sineRun (⟨fun _ => (0:ℚ), fun _ => 0, fun _ => 0, fun _ => 0, fun _ => none⟩ :
        SineEnv ℚ) 0 1 true 0 1).data.position.get? 0 = some Meas.nan) ∧
    ((0:ℚ) < 4 ∧
      (holdSample ⟨0, fun _ => 0, fun _ => 1, fun _ => none⟩ 0 0 400 1 4 8
        ⟨0, 0, 0, DriverRec.empty ℚ⟩).data.position.get?
        (DriverRec.empty ℚ).position.length = some Meas.nan) := by
  constructor
  · exact ⟨by norm_num, (measurement_miss_recovery.1 ℚ ⟨fun _ => (0:ℚ), fun _ => 0,
      fun _ => 0, fun _ => 0, fun _ => none⟩ 0 1 0 1 0 (by norm_num) rfl).1⟩
  · exact ⟨by norm_num, (measurement_miss_recovery.2.2.1 ⟨0, fun _ => 0, fun _ => 1,
      fun _ => none⟩ 0 0 400 1 4 7 ⟨0, 0, 0, DriverRec.empty ℚ⟩ (by norm_num) rfl).1⟩

/-- C9: gain selection differs between the two drivers in the simulated
branch: the sine driver uses `(sim_kp, sim_kv, 0)`, the step driver uses
`(sim_kp, sim_kv, ki)` (falling back to the real integral gain even when
simulating); with `is_real` both use `(kp, kd, ki)`. -/
theorem gain_selection_asymmetry :
    ∀ kp kd ki sim_kp sim_kv : ℚ,
      sineUsedGains kp kd ki sim_kp sim_kv false = (sim_kp, sim_kv, 0) ∧
      stepUsedGains kp kd ki sim_kp sim_kv false = (sim_kp, sim_kv, ki) ∧
      sineUsedGains kp kd ki sim_kp sim_kv true = (kp, kd, ki) ∧
      stepUsedGains kp kd ki sim_kp sim_kv true = (kp, kd, ki) := by
  intro kp kd ki skp skv
  exact ⟨rfl, rfl, rfl, rfl⟩
